import Mathlib

/-!
Shallow embedding of `src/include/RingBuffer.hpp` (class `RingBuffer<T>`),
a fixed-capacity circular buffer whose backing region is mapped twice into
consecutive virtual address ranges, so that element slot `i` and slot
`i + capacity` alias the same storage.

Modelling choices:
* Machine `size_t` counters (`m_head`, `m_tail`) are `Nat`: both counters are
  monotone and the code's `m_head - m_tail` is exercised only under the
  invariant `m_tail ≤ m_head`, where C++ `size_t` subtraction agrees with
  truncated `Nat` subtraction.
* The backing physical region is modelled at element granularity as a
  function `Nat → T`; only indices `< m_capacity` are meaningful.  The
  mirrored second mapping makes the contiguous `memcpy` of `write`/`read`
  act elementwise on slot `(start + j) % m_capacity`, which `storeSeq`
  reproduces (sequential stores, a later store to the same slot wins,
  exactly as the forward byte copy through the mirror does).
* The OS page size (`sysconf(_SC_PAGESIZE)`) is an explicit positive
  parameter `ps`; OS-level mapping failures are outside the model, which
  corresponds to the spec's "OS resource failures aside".
-/

namespace VRB

/-- State of `RingBuffer<T>` (fields `m_size_bytes`, `m_capacity`,
`m_buffer`, `m_head`, `m_tail` of `RingBuffer.hpp`, lines 20-25). -/
@[ext]
structure RingBuffer (T : Type) where
  m_size_bytes : Nat
  m_capacity : Nat
  m_buffer : Nat → T
  m_head : Nat
  m_tail : Nat

/-- `RingBuffer::round_to_page` (lines 44-54): round `size` up to a multiple
of the page size `ps`; a zero request yields one page. -/
def round_to_page (ps size : Nat) : Nat :=
  if size = 0 then ps else ((size + ps - 1) / ps) * ps

/-- The error category of the constructor's capacity check
(`std::invalid_argument`, line 61).  OS-level `std::system_error` failures
are not part of the model. -/
inductive ConstructError where
  | configurationError
deriving DecidableEq

/-- The constructor (lines 57-111): reject a zero capacity request, round
`requested * sizeof(T)` up to the page size, and derive the element
capacity; on success `m_head = m_tail = 0`.  `init` is the initial content
of the freshly mapped region. -/
def construct (T : Type) (ps elemSize requested : Nat) (init : Nat → T) :
    Except ConstructError (RingBuffer T) :=
  if requested = 0 then
    .error .configurationError
  else
    let sb := round_to_page ps (requested * elemSize)
    .ok { m_size_bytes := sb, m_capacity := sb / elemSize,
          m_buffer := init, m_head := 0, m_tail := 0 }

/-- Elementwise effect of the contiguous `memcpy` into the mirrored region:
store `data` into consecutive slots starting at virtual index `start`,
where the mirror folds virtual index `v` onto physical slot `v % cap`.
Stores happen in increasing index order, so a later store to an aliased
slot wins, as in the forward byte copy. -/
def storeSeq {T : Type} (cap : Nat) : Nat → List T → (Nat → T) → (Nat → T)
  | _, [], buf => buf
  | start, d :: ds, buf =>
      storeSeq cap (start + 1) ds (fun i => if i = start % cap then d else buf i)

/-- `RingBuffer::write` (lines 131-144): copy `data` at slot
`m_head % m_capacity`, advance `m_head` by the length, then if
`m_head - m_tail > m_capacity` drop the oldest unread elements by setting
`m_tail = m_head - m_capacity`. -/
def write {T : Type} (rb : RingBuffer T) (data : List T) : RingBuffer T :=
  let h := rb.m_head + data.length
  { rb with
    m_buffer := storeSeq rb.m_capacity (rb.m_head % rb.m_capacity) data rb.m_buffer
    m_head := h
    m_tail := if h - rb.m_tail > rb.m_capacity then h - rb.m_capacity else rb.m_tail }

/-- `RingBuffer::read` (lines 146-157): copy
`to_copy = min(m_head - m_tail, output.size())` elements starting at slot
`m_tail % m_capacity`, advance `m_tail` by `to_copy`.  The first component
is the data placed into `output` (its length is the returned count), the
second the post-state. -/
def read {T : Type} (rb : RingBuffer T) (M : Nat) : List T × RingBuffer T :=
  let available := rb.m_head - rb.m_tail
  let to_copy := min available M
  ((List.range to_copy).map
      (fun j => rb.m_buffer ((rb.m_tail % rb.m_capacity + j) % rb.m_capacity)),
   { rb with m_tail := rb.m_tail + to_copy })

/-- `RingBuffer::size` (line 159). -/
def size {T : Type} (rb : RingBuffer T) : Nat := rb.m_head - rb.m_tail

/-- `RingBuffer::capacity` (line 160). -/
def capacity {T : Type} (rb : RingBuffer T) : Nat := rb.m_capacity

/-- `RingBuffer::empty` (line 161). -/
def empty {T : Type} (rb : RingBuffer T) : Bool := rb.m_head == rb.m_tail

/-- `RingBuffer::clear` (lines 163-167): reset the cursors, leave the
backing memory untouched. -/
def clear {T : Type} (rb : RingBuffer T) : RingBuffer T :=
  { rb with m_head := 0, m_tail := 0 }

/-- Byte offset of the start of `write`'s single contiguous copy
(`target = m_buffer + (m_head % m_capacity)`, line 133), measured in bytes
from the base of the doubled mapping. -/
def write_byte_offset {T : Type} (rb : RingBuffer T) (elemSize : Nat) : Nat :=
  (rb.m_head % rb.m_capacity) * elemSize

/-- The contiguous copy of a `write` of `L` elements stays inside the
doubled mirrored mapping of `2 * m_size_bytes` bytes (reservation at
line 82; `memcpy` of `data.size_bytes()` at line 135). -/
def write_within_region {T : Type} (rb : RingBuffer T) (elemSize L : Nat) : Prop :=
  write_byte_offset rb elemSize + L * elemSize ≤ 2 * rb.m_size_bytes

/-- Public operations, for stating reachability and monotonicity across
operation sequences. -/
inductive Op (T : Type) where
  | opWrite (data : List T)
  | opRead (M : Nat)
  | opClear

/-- Apply one public operation to a buffer state. -/
def applyOp {T : Type} (rb : RingBuffer T) : Op T → RingBuffer T
  | .opWrite data => write rb data
  | .opRead M => (read rb M).2
  | .opClear => clear rb

/-- Apply a sequence of public operations from left to right. -/
def applyOps {T : Type} (rb : RingBuffer T) (ops : List (Op T)) : RingBuffer T :=
  ops.foldl applyOp rb

/-- States reachable from a freshly constructed buffer (`m_head = m_tail = 0`)
by writes of length at most `m_capacity`, reads, and clears. -/
inductive Reachable {T : Type} : RingBuffer T → Prop where
  | fresh (rb : RingBuffer T) (h0 : rb.m_head = 0) (t0 : rb.m_tail = 0) :
      Reachable rb
  | wstep (rb : RingBuffer T) (data : List T) (hr : Reachable rb)
      (hl : data.length ≤ rb.m_capacity) : Reachable (write rb data)
  | rstep (rb : RingBuffer T) (M : Nat) (hr : Reachable rb) :
      Reachable ((read rb M).2)
  | cstep (rb : RingBuffer T) (hr : Reachable rb) : Reachable (clear rb)

/-- Spec-side predicate, following the spec's words "`capacity() * elementSize`
is the smallest multiple of the page size ≥ `requestedCapacity * elementSize`":
`m` is a multiple of `ps`, is at least `n`, and is below every such multiple. -/
def leastPageMultiple (ps n m : Nat) : Prop :=
  ps ∣ m ∧ n ≤ m ∧ ∀ k, ps ∣ k → n ≤ k → m ≤ k

/-- Byte-granularity state of `RingBuffer<T>`: the same sizes and cursors,
with the backing physical region modelled byte by byte (`m_bytes i` for
`i < m_size_bytes`) and the element size carried explicitly.  This is the
faithful view of the `memcpy` calls (lines 135 and 153): they move
virtually contiguous bytes, and the second mapping folds virtual byte `v`
onto physical byte `v % m_size_bytes`.  It coincides with the element-slot
view of `RingBuffer` exactly when `m_capacity * m_elem_size = m_size_bytes`;
when `sizeof(T)` does not divide `m_size_bytes` the region ends in slack
bytes that the slot grid skips but a wrapped byte copy hits off-grid. -/
@[ext]
structure ByteRingBuffer where
  m_size_bytes : Nat
  m_capacity : Nat
  m_elem_size : Nat
  m_bytes : Nat → Nat
  m_head : Nat
  m_tail : Nat

/-- `RingBuffer::write` at byte granularity (lines 131-144): a single
contiguous copy of the data's bytes (`data.flatten`, each element given as
its `sizeof(T)` bytes) starting at virtual byte
`(m_head % m_capacity) * sizeof(T)`, the mirror folding virtual bytes
modulo `m_size_bytes`; then the same cursor updates as the code. -/
def byte_write (rb : ByteRingBuffer) (data : List (List Nat)) : ByteRingBuffer :=
  let h := rb.m_head + data.length
  { rb with
    m_bytes := storeSeq rb.m_size_bytes
      ((rb.m_head % rb.m_capacity) * rb.m_elem_size) data.flatten rb.m_bytes
    m_head := h
    m_tail := if h - rb.m_tail > rb.m_capacity then h - rb.m_capacity else rb.m_tail }

/-- `RingBuffer::read` at byte granularity (lines 146-157): element `j` of
the output receives the `sizeof(T)` virtually contiguous bytes starting at
virtual byte `(m_tail % m_capacity) * sizeof(T) + j * sizeof(T)`, folded
modulo `m_size_bytes` by the mirror; then the tail advances by the count. -/
def byte_read (rb : ByteRingBuffer) (M : Nat) : List (List Nat) × ByteRingBuffer :=
  let to_copy := min (rb.m_head - rb.m_tail) M
  ((List.range to_copy).map (fun j =>
      (List.range rb.m_elem_size).map (fun b =>
        rb.m_bytes (((rb.m_tail % rb.m_capacity) * rb.m_elem_size +
          j * rb.m_elem_size + b) % rb.m_size_bytes))),
   { rb with m_tail := rb.m_tail + to_copy })

/-- A fresh byte-level state in the slack configuration that `construct`
produces for page size 16 and a 3-byte element type: a 16-byte region,
`capacity = 16 / 3 = 5`, and one slack byte (byte 15) off the element
grid.  (Page size 4096 with the same element type gives the analogous
slack state with `capacity = 1365`.) -/
def brbSlack : ByteRingBuffer :=
  { m_size_bytes := 16, m_capacity := 5, m_elem_size := 3,
    m_bytes := fun _ => 0, m_head := 0, m_tail := 0 }

/-- The slack configuration with both cursors at 4, as reached by writing
four elements and reading all four back. -/
def brbSlack4 : ByteRingBuffer := { brbSlack with m_head := 4, m_tail := 4 }

/-- A fresh byte-level state in an aligned configuration: a 16-byte region
holding four 4-byte elements, no slack. -/
def brbAligned : ByteRingBuffer :=
  { m_size_bytes := 16, m_capacity := 4, m_elem_size := 4,
    m_bytes := fun _ => 0, m_head := 0, m_tail := 0 }

/-! ## Basic unfolding laws for the operations -/

@[simp]
theorem byte_write_head (rb : ByteRingBuffer) (data : List (List Nat)) :
    (byte_write rb data).m_head = rb.m_head + data.length := rfl

@[simp]
theorem byte_write_tail (rb : ByteRingBuffer) (data : List (List Nat)) :
    (byte_write rb data).m_tail =
      if rb.m_head + data.length - rb.m_tail > rb.m_capacity then
        rb.m_head + data.length - rb.m_capacity
      else rb.m_tail := rfl

@[simp]
theorem byte_write_capacity (rb : ByteRingBuffer) (data : List (List Nat)) :
    (byte_write rb data).m_capacity = rb.m_capacity := rfl

@[simp]
theorem byte_write_elem_size (rb : ByteRingBuffer) (data : List (List Nat)) :
    (byte_write rb data).m_elem_size = rb.m_elem_size := rfl

@[simp]
theorem byte_write_size_bytes (rb : ByteRingBuffer) (data : List (List Nat)) :
    (byte_write rb data).m_size_bytes = rb.m_size_bytes := rfl

theorem byte_write_bytes (rb : ByteRingBuffer) (data : List (List Nat)) :
    (byte_write rb data).m_bytes =
      storeSeq rb.m_size_bytes ((rb.m_head % rb.m_capacity) * rb.m_elem_size)
        data.flatten rb.m_bytes := rfl

theorem byte_read_fst (rb : ByteRingBuffer) (M : Nat) :
    (byte_read rb M).1 =
      (List.range (min (rb.m_head - rb.m_tail) M)).map (fun j =>
        (List.range rb.m_elem_size).map (fun b =>
          rb.m_bytes (((rb.m_tail % rb.m_capacity) * rb.m_elem_size +
            j * rb.m_elem_size + b) % rb.m_size_bytes))) := rfl

@[simp]
theorem write_head {T : Type} (rb : RingBuffer T) (data : List T) :
    (write rb data).m_head = rb.m_head + data.length := rfl

@[simp]
theorem write_tail {T : Type} (rb : RingBuffer T) (data : List T) :
    (write rb data).m_tail =
      if rb.m_head + data.length - rb.m_tail > rb.m_capacity then
        rb.m_head + data.length - rb.m_capacity
      else rb.m_tail := rfl

@[simp]
theorem write_capacity {T : Type} (rb : RingBuffer T) (data : List T) :
    (write rb data).m_capacity = rb.m_capacity := rfl

@[simp]
theorem write_size_bytes {T : Type} (rb : RingBuffer T) (data : List T) :
    (write rb data).m_size_bytes = rb.m_size_bytes := rfl

theorem write_buffer {T : Type} (rb : RingBuffer T) (data : List T) :
    (write rb data).m_buffer =
      storeSeq rb.m_capacity (rb.m_head % rb.m_capacity) data rb.m_buffer := rfl

@[simp]
theorem read_fst {T : Type} (rb : RingBuffer T) (M : Nat) :
    (read rb M).1 =
      (List.range (min (rb.m_head - rb.m_tail) M)).map
        (fun j => rb.m_buffer ((rb.m_tail % rb.m_capacity + j) % rb.m_capacity)) := rfl

@[simp]
theorem read_snd_tail {T : Type} (rb : RingBuffer T) (M : Nat) :
    (read rb M).2.m_tail = rb.m_tail + min (rb.m_head - rb.m_tail) M := rfl

@[simp]
theorem read_snd_head {T : Type} (rb : RingBuffer T) (M : Nat) :
    (read rb M).2.m_head = rb.m_head := rfl

@[simp]
theorem read_snd_capacity {T : Type} (rb : RingBuffer T) (M : Nat) :
    (read rb M).2.m_capacity = rb.m_capacity := rfl

@[simp]
theorem read_snd_buffer {T : Type} (rb : RingBuffer T) (M : Nat) :
    (read rb M).2.m_buffer = rb.m_buffer := rfl

@[simp]
theorem clear_head {T : Type} (rb : RingBuffer T) : (clear rb).m_head = 0 := rfl

@[simp]
theorem clear_tail {T : Type} (rb : RingBuffer T) : (clear rb).m_tail = 0 := rfl

@[simp]
theorem clear_capacity {T : Type} (rb : RingBuffer T) :
    (clear rb).m_capacity = rb.m_capacity := rfl

@[simp]
theorem clear_buffer {T : Type} (rb : RingBuffer T) :
    (clear rb).m_buffer = rb.m_buffer := rfl

/-! ## Slot lemmas for the mirrored sequential store -/

/-- A slot hit by no store of the sequence keeps its old content. -/
theorem storeSeq_miss {T : Type} (cap : Nat) (data : List T) :
    ∀ (start : Nat) (buf : Nat → T) (i : Nat),
      (∀ j, j < data.length → (start + j) % cap ≠ i) →
      storeSeq cap start data buf i = buf i := by
  induction data with
  | nil => intro start buf i _; rfl
  | cons d ds ih =>
      intro start buf i h
      have hrest : ∀ j, j < ds.length → (start + 1 + j) % cap ≠ i := by
        intro j hj
        have h1 := h (j + 1) (by simpa using Nat.succ_lt_succ hj)
        rw [show start + 1 + j = start + (j + 1) by omega]
        exact h1
      have h0 : start % cap ≠ i := by simpa using h 0 (Nat.succ_pos _)
      calc storeSeq cap start (d :: ds) buf i
          = (fun k => if k = start % cap then d else buf k) i :=
            ih (start + 1) _ i hrest
        _ = if i = start % cap then d else buf i := rfl
        _ = buf i := if_neg (fun he => h0 he.symm)

/-- The store of index `j` survives when every later store lands on a
different slot: the value read back from its slot is `data.get j`. -/
theorem storeSeq_last_hit {T : Type} (cap : Nat) (data : List T) :
    ∀ (start : Nat) (buf : Nat → T) (j : Nat) (hj : j < data.length),
      (∀ k, j < k → k < data.length → (start + k) % cap ≠ (start + j) % cap) →
      storeSeq cap start data buf ((start + j) % cap) = data.get ⟨j, hj⟩ := by
  induction data with
  | nil => intro _ _ j hj _; exact absurd hj (Nat.not_lt_zero j)
  | cons d ds ih =>
      intro start buf j hj hlast
      match j with
      | 0 =>
          have hmiss : ∀ j', j' < ds.length →
              (start + 1 + j') % cap ≠ (start + 0) % cap := by
            intro j' hj'
            have h1 := hlast (j' + 1) (Nat.succ_pos _)
              (by simpa using Nat.succ_lt_succ hj')
            rw [show start + 1 + j' = start + (j' + 1) by omega]
            exact h1
          calc storeSeq cap start (d :: ds) buf ((start + 0) % cap)
              = (fun k => if k = start % cap then d else buf k)
                  ((start + 0) % cap) :=
                storeSeq_miss cap ds (start + 1) _ _ hmiss
            _ = d := by simp
      | j'' + 1 =>
          have hj'' : j'' < ds.length := Nat.lt_of_succ_lt_succ hj
          have hlast' : ∀ k, j'' < k → k < ds.length →
              (start + 1 + k) % cap ≠ (start + 1 + j'') % cap := by
            intro k hk hklen
            have h1 := hlast (k + 1) (Nat.succ_lt_succ hk)
              (by simpa using Nat.succ_lt_succ hklen)
            rw [show start + 1 + k = start + (k + 1) by omega,
                show start + 1 + j'' = start + (j'' + 1) by omega]
            exact h1
          calc storeSeq cap start (d :: ds) buf ((start + (j'' + 1)) % cap)
              = storeSeq cap (start + 1) ds
                  (fun k => if k = start % cap then d else buf k)
                  ((start + 1 + j'') % cap) := by
                rw [show start + (j'' + 1) = start + 1 + j'' by omega]; rfl
            _ = ds.get ⟨j'', hj''⟩ := ih (start + 1) _ j'' hj'' hlast'

/-- When at most `cap` elements are stored, every index's slot survives:
slots of distinct indices below `cap` are distinct. -/
theorem storeSeq_hit {T : Type} (cap : Nat) (data : List T)
    (hlen : data.length ≤ cap) (start : Nat) (buf : Nat → T) (j : Nat)
    (hj : j < data.length) :
    storeSeq cap start data buf ((start + j) % cap) = data.get ⟨j, hj⟩ := by
  apply storeSeq_last_hit
  intro k hk hklen heq
  have hmod : Nat.ModEq cap (start + j) (start + k) := heq.symm
  have hdvd : cap ∣ (start + k) - (start + j) :=
    (Nat.modEq_iff_dvd' (by omega)).mp hmod
  have hdvd' : cap ∣ k - j := by
    have he : (start + k) - (start + j) = k - j := by omega
    rwa [he] at hdvd
  have hle : cap ≤ k - j := Nat.le_of_dvd (by omega) hdvd'
  omega

/-- Storing a concatenation is storing the two parts in sequence. -/
theorem storeSeq_append {T : Type} (cap : Nat) (a : List T) :
    ∀ (b : List T) (start : Nat) (buf : Nat → T),
      storeSeq cap start (a ++ b) buf =
        storeSeq cap (start + a.length) b (storeSeq cap start a buf) := by
  induction a with
  | nil => intro b start buf; simp [storeSeq]
  | cons d ds ih =>
      intro b start buf
      show storeSeq cap (start + 1) (ds ++ b)
          (fun i => if i = start % cap then d else buf i) = _
      rw [ih, List.length_cons,
        show start + (ds.length + 1) = start + 1 + ds.length by omega]
      rfl

/-- The physical effect of a sequential store depends on the start index
only through its residue modulo the capacity. -/
theorem storeSeq_congr_start {T : Type} (cap : Nat) (data : List T) :
    ∀ (s1 s2 : Nat) (buf : Nat → T), s1 % cap = s2 % cap →
      storeSeq cap s1 data buf = storeSeq cap s2 data buf := by
  induction data with
  | nil => intro _ _ _ _; rfl
  | cons d ds ih =>
      intro s1 s2 buf h
      show storeSeq cap (s1 + 1) ds (fun i => if i = s1 % cap then d else buf i)
          = storeSeq cap (s2 + 1) ds (fun i => if i = s2 % cap then d else buf i)
      rw [h]
      exact ih (s1 + 1) (s2 + 1) _
        (by rw [Nat.add_mod s1 1, Nat.add_mod s2 1, h])

/-- Round trip: writing at most `capacity` elements into an empty buffer and
reading them back with a matching output length returns the data and leaves
the buffer empty. -/
theorem read_after_write_of_empty {T : Type} (rb : RingBuffer T) (data : List T)
    (he : rb.m_head = rb.m_tail) (hlen : data.length ≤ rb.m_capacity) :
    (read (write rb data) data.length).1 = data ∧
    size (read (write rb data) data.length).2 = 0 ∧
    empty (read (write rb data) data.length).2 = true := by
  have htail : (write rb data).m_tail = rb.m_tail := by
    rw [write_tail, he, if_neg (by omega)]
  have hmin : min ((write rb data).m_head - (write rb data).m_tail)
      data.length = data.length := by
    rw [write_head, htail, he]; omega
  have hfst : (read (write rb data) data.length).1 = data := by
    rw [read_fst, hmin]
    apply List.ext_getElem
    · simp
    · intro j h1 h2
      rw [List.getElem_map, List.getElem_range, htail, write_capacity,
        write_buffer, he]
      have hj : j < data.length := h2
      have hhit := storeSeq_hit rb.m_capacity data hlen
        (rb.m_tail % rb.m_capacity) rb.m_buffer j hj
      rw [hhit]
      exact List.get_eq_getElem data ⟨j, hj⟩
  refine ⟨hfst, ?_, ?_⟩
  · show (write rb data).m_head -
        ((write rb data).m_tail + min _ data.length) = 0
    rw [hmin, write_head, htail, he]; omega
  · show ((write rb data).m_head ==
        (write rb data).m_tail + min _ data.length) = true
    rw [hmin, write_head, htail, he, Nat.beq_eq_true_eq]

/-- `round_to_page ps n` is the least multiple of `ps` that is at least `n`,
for a positive page size and a positive request. -/
theorem round_to_page_least (ps n : Nat) (hp : 0 < ps) (hn : 0 < n) :
    leastPageMultiple ps n (round_to_page ps n) := by
  unfold round_to_page
  rw [if_neg (by omega)]
  refine ⟨⟨(n + ps - 1) / ps, Nat.mul_comm _ _⟩, ?_, ?_⟩
  · rw [Nat.mul_comm]
    have hdm := Nat.div_add_mod (n + ps - 1) ps
    have hmlt : (n + ps - 1) % ps < ps := Nat.mod_lt _ hp
    omega
  · intro k hk hnk
    obtain ⟨t, ht⟩ := hk
    subst ht
    have h1 : (n + ps - 1) / ps ≤ (ps - 1 + ps * t) / ps := by
      apply Nat.div_le_div_right
      omega
    have hz : (ps - 1) / ps = 0 := Nat.div_eq_of_lt (by omega)
    rw [Nat.add_mul_div_left _ _ hp, hz] at h1
    calc ((n + ps - 1) / ps) * ps ≤ t * ps :=
          Nat.mul_le_mul_right ps (by omega)
      _ = ps * t := Nat.mul_comm t ps

/-! ## Byte-level lemmas -/

/-- The flattened bytes of a list of `es`-sized elements number
`length * es`. -/
theorem flatten_length_uniform {T : Type} (es : Nat) :
    ∀ (l : List (List T)), (∀ e ∈ l, e.length = es) →
      l.flatten.length = l.length * es := by
  intro l
  induction l with
  | nil => intro _; simp
  | cons e l ih =>
      intro h
      rw [List.flatten_cons, List.length_append, List.length_cons,
        ih (fun x hx => h x (List.mem_cons_of_mem e hx)),
        h e (List.mem_cons_self e l)]
      ring

/-- Byte `b` of element `q` inside the flattened bytes of `n` copies of a
fixed element. -/
theorem flatten_replicate_getElem {T : Type} (e : List T) :
    ∀ (n q b : Nat), q < n →
      ∀ (hb : b < e.length)
        (h : q * e.length + b < ((List.replicate n e).flatten).length),
      ((List.replicate n e).flatten)[q * e.length + b] = e[b] := by
  intro n
  induction n with
  | zero =>
      intro q b hq
      exact absurd hq (Nat.not_lt_zero q)
  | succ m ih =>
      intro q b hq hb h
      have hrepl : (List.replicate (m + 1) e).flatten =
          e ++ (List.replicate m e).flatten := by
        rw [List.replicate_succ, List.flatten_cons]
      rcases q with _ | q'
      · simp only [hrepl, Nat.zero_mul, Nat.zero_add] at h ⊢
        exact List.getElem_append_left hb
      · have hlen_m : ((List.replicate m e).flatten).length = m * e.length := by
          rw [flatten_length_uniform e.length _
            (fun x hx => by rw [List.eq_of_mem_replicate hx]),
            List.length_replicate]
        have e1 : (q' + 1) * e.length = q' * e.length + e.length := by ring
        have hge : e.length ≤ (q' + 1) * e.length + b := by omega
        have hidx : (q' + 1) * e.length + b - e.length =
            q' * e.length + b := by omega
        simp only [hrepl, List.length_append, hlen_m] at h ⊢
        rw [List.getElem_append_right hge]
        simp only [hidx]
        exact ih q' b (by omega) hb (by omega)

/-- Byte `b` of element `q` inside the flattened bytes of `n` copies of one
element followed by `m` copies of another, both of size `es`. -/
theorem flatten_two_replicate_get {T : Type} (one nine : List T) (es : Nat)
    (hone : one.length = es) (hnine : nine.length = es) :
    ∀ (n m q b : Nat) (hb1 : b < one.length) (hb2 : b < nine.length)
      (h : q * es + b <
        ((List.replicate n one ++ List.replicate m nine).flatten).length),
      q < n + m →
      ((List.replicate n one ++ List.replicate m nine).flatten).get
          ⟨q * es + b, h⟩ =
        if q < n then one.get ⟨b, hb1⟩ else nine.get ⟨b, hb2⟩ := by
  intro n m q b hb1 hb2 h hq
  have hflA : ((List.replicate n one).flatten).length = n * es := by
    rw [flatten_length_uniform es _
      (fun x hx => by rw [List.eq_of_mem_replicate hx]; exact hone),
      List.length_replicate]
  have hflB : ((List.replicate m nine).flatten).length = m * es := by
    rw [flatten_length_uniform es _
      (fun x hx => by rw [List.eq_of_mem_replicate hx]; exact hnine),
      List.length_replicate]
  rw [List.get_eq_getElem]
  simp only [List.flatten_append] at h ⊢
  by_cases hqn : q < n
  · rw [if_pos hqn]
    have e1 : q * es + es = (q + 1) * es := by ring
    have e2 : (q + 1) * es ≤ n * es := Nat.mul_le_mul_right es (by omega)
    have hbound : q * es + b < ((List.replicate n one).flatten).length := by
      rw [hflA]; omega
    rw [List.getElem_append_left hbound]
    have hcast : ((List.replicate n one).flatten)[q * es + b] = one[b] := by
      have := flatten_replicate_getElem one n q b hqn (by omega)
        (by rw [hone]; exact hbound)
      simpa [hone] using this
    rw [hcast, List.get_eq_getElem]
  · rw [if_neg hqn]
    have e1 : (q - n) * es + n * es = q * es := by
      rw [← Nat.add_mul]
      congr 1
      omega
    have hge : ((List.replicate n one).flatten).length ≤ q * es + b := by
      rw [hflA]
      have : n * es ≤ q * es := Nat.mul_le_mul_right es (by omega)
      omega
    rw [List.getElem_append_right hge]
    have hidx : q * es + b - ((List.replicate n one).flatten).length =
        (q - n) * es + b := by
      rw [hflA]; omega
    simp only [hidx]
    have hqm : q - n < m := by omega
    have hbound2 : (q - n) * es + b < ((List.replicate m nine).flatten).length := by
      have e2 : (q - n) * es + es = (q - n + 1) * es := by ring
      have e3 : (q - n + 1) * es ≤ m * es := Nat.mul_le_mul_right es (by omega)
      rw [hflB]; omega
    have hcast : ((List.replicate m nine).flatten)[(q - n) * es + b] = nine[b] := by
      have := flatten_replicate_getElem nine m (q - n) b hqm (by omega)
        (by rw [hnine]; exact hbound2)
      simpa [hnine] using this
    rw [hcast, List.get_eq_getElem]

/-- Two consecutive byte-level writes are one byte-level write of the
concatenation, in the aligned case `m_capacity * m_elem_size =
m_size_bytes` (the second write's start, re-reduced modulo the capacity,
is then congruent modulo `m_size_bytes` to the byte position where the
first copy ended). -/
theorem byte_write_write (rb : ByteRingBuffer) (a b : List (List Nat))
    (halign : rb.m_capacity * rb.m_elem_size = rb.m_size_bytes)
    (hsz : ∀ e ∈ a, e.length = rb.m_elem_size) :
    byte_write (byte_write rb a) b = byte_write rb (a ++ b) := by
  apply ByteRingBuffer.ext
  · rfl
  · rfl
  · rfl
  · show storeSeq rb.m_size_bytes
        (((rb.m_head + a.length) % rb.m_capacity) * rb.m_elem_size) b.flatten
        (storeSeq rb.m_size_bytes
          ((rb.m_head % rb.m_capacity) * rb.m_elem_size) a.flatten rb.m_bytes) =
      storeSeq rb.m_size_bytes ((rb.m_head % rb.m_capacity) * rb.m_elem_size)
        (a ++ b).flatten rb.m_bytes
    rw [List.flatten_append, storeSeq_append,
      flatten_length_uniform rb.m_elem_size a hsz]
    apply storeSeq_congr_start
    rw [← halign]
    calc ((rb.m_head + a.length) % rb.m_capacity) * rb.m_elem_size %
          (rb.m_capacity * rb.m_elem_size)
        = ((rb.m_head + a.length) % rb.m_capacity % rb.m_capacity) *
            rb.m_elem_size := Nat.mul_mod_mul_right _ _ _
      _ = ((rb.m_head + a.length) % rb.m_capacity) * rb.m_elem_size := by
            rw [Nat.mod_mod_of_dvd _ (Nat.dvd_refl _)]
      _ = ((rb.m_head % rb.m_capacity + a.length) % rb.m_capacity) *
            rb.m_elem_size := by rw [Nat.mod_add_mod]
      _ = ((rb.m_head % rb.m_capacity + a.length) * rb.m_elem_size) %
            (rb.m_capacity * rb.m_elem_size) :=
            (Nat.mul_mod_mul_right _ _ _).symm
      _ = ((rb.m_head % rb.m_capacity) * rb.m_elem_size +
            a.length * rb.m_elem_size) % (rb.m_capacity * rb.m_elem_size) := by
            rw [Nat.add_mul]
  · show rb.m_head + a.length + b.length = rb.m_head + (a ++ b).length
    rw [List.length_append]; omega
  · simp only [byte_write_tail, byte_write_head, byte_write_capacity,
      List.length_append]
    split_ifs <;> omega

/-- A concrete freshly constructed buffer (capacity `cap` elements of
8 bytes each), used to instantiate the theorems at concrete inputs. -/
def rbDemo (cap : Nat) : RingBuffer Nat :=
  { m_size_bytes := cap * 8, m_capacity := cap, m_buffer := fun _ => 0,
    m_head := 0, m_tail := 0 }

/-! ## The claims -/

/-- Claim C1: writing `L ≤ capacity` elements into an empty buffer and
immediately reading with an output buffer of length `L` returns exactly the
written sequence, in order, and leaves the buffer empty
(`size = 0`, `empty = true`). -/
theorem C1_round_trip {T : Type} (rb : RingBuffer T) (data : List T)
    (hemp : empty rb = true) (hlen : data.length ≤ capacity rb) :
    (read (write rb data) data.length).1 = data ∧
    (read (write rb data) data.length).1.length = data.length ∧
    size (read (write rb data) data.length).2 = 0 ∧
    empty (read (write rb data) data.length).2 = true := by
  have he : rb.m_head = rb.m_tail := by
    simpa [empty, Nat.beq_eq_true_eq] using hemp
  obtain ⟨h1, h2, h3⟩ := read_after_write_of_empty rb data he hlen
  exact ⟨h1, by rw [h1], h2, h3⟩

/-- Witness for C1: round trip of `[1, 2, 3]` through a fresh buffer of
capacity 8. -/
theorem C1_round_trip_witness :
    empty (rbDemo 8) = true ∧
    ([1, 2, 3] : List Nat).length ≤ capacity (rbDemo 8) ∧
    ((read (write (rbDemo 8) [1, 2, 3]) ([1, 2, 3] : List Nat).length).1
        = [1, 2, 3] ∧
      (read (write (rbDemo 8) [1, 2, 3]) ([1, 2, 3] : List Nat).length).1.length
        = ([1, 2, 3] : List Nat).length ∧
      size (read (write (rbDemo 8) [1, 2, 3]) ([1, 2, 3] : List Nat).length).2
        = 0 ∧
      empty (read (write (rbDemo 8) [1, 2, 3]) ([1, 2, 3] : List Nat).length).2
        = true) :=
  ⟨rfl, by decide, C1_round_trip (rbDemo 8) [1, 2, 3] rfl (by decide)⟩

/-- Counterexample to C2 as stated: in the slack configuration that
`construct` yields for page size 16 and a 3-byte element type
(`m_size_bytes = 16`, `capacity = 5`, one slack byte), writing `capacity`
ones and then three nines and reading everything back does NOT return two
ones followed by three nines: the wrapped part of the byte copy lands off
the element grid, so the three final elements read back as the byte-shifted
`[0, 9, 0]`, which includes the never-written slack byte 15.  (Page size
4096 with the same element type produces the analogous failure at
`capacity = 1365`.) -/
theorem C2_counterexample :
    construct Nat 16 3 1 (fun _ => 0) =
      .ok { m_size_bytes := 16, m_capacity := 5,
            m_buffer := fun _ => (0 : Nat), m_head := 0, m_tail := 0 } ∧
    3 ≤ brbSlack.m_capacity ∧
    (byte_read (byte_write (byte_write brbSlack
        (List.replicate brbSlack.m_capacity [1, 0, 0]))
        (List.replicate 3 [9, 0, 0])) brbSlack.m_capacity).1 =
      [[1, 0, 0], [1, 0, 0], [0, 9, 0], [0, 9, 0], [0, 9, 0]] ∧
    (byte_read (byte_write (byte_write brbSlack
        (List.replicate brbSlack.m_capacity [1, 0, 0]))
        (List.replicate 3 [9, 0, 0])) brbSlack.m_capacity).1 ≠
      List.replicate (brbSlack.m_capacity - 3) [1, 0, 0] ++
        List.replicate 3 [9, 0, 0] :=
  ⟨rfl, by decide, by decide, by decide⟩

/-- Claim C2, amended: every write advances the head by its length and,
when the unread count then exceeds the capacity, sets
`tail = head - capacity` (the unconditional cursor law, exactly the code's);
and in the aligned case `capacity * sizeof(T) = m_size_bytes` — which holds
whenever `sizeof(T)` divides the page size, in particular for every element
type exercised by the repository's tests — writing `capacity` ones and then
three nines into a fresh buffer leaves exactly `capacity` unread elements
that read back as the last three nine and the rest one.  In the slack case
`sizeof(T) ∤ m_size_bytes` the read-back fails (see the counterexample). -/
theorem C2_overwrite_policy (rb : ByteRingBuffer) (one nine : List Nat)
    (h0 : rb.m_head = 0) (t0 : rb.m_tail = 0) (hc : 3 ≤ rb.m_capacity)
    (halign : rb.m_capacity * rb.m_elem_size = rb.m_size_bytes)
    (hone : one.length = rb.m_elem_size)
    (hnine : nine.length = rb.m_elem_size) :
    (∀ (rb2 : ByteRingBuffer) (data : List (List Nat)),
        (byte_write rb2 data).m_head = rb2.m_head + data.length ∧
        (byte_write rb2 data).m_tail =
          if rb2.m_head + data.length - rb2.m_tail > rb2.m_capacity then
            rb2.m_head + data.length - rb2.m_capacity
          else rb2.m_tail) ∧
    (byte_write (byte_write rb (List.replicate rb.m_capacity one))
          (List.replicate 3 nine)).m_head -
        (byte_write (byte_write rb (List.replicate rb.m_capacity one))
          (List.replicate 3 nine)).m_tail = rb.m_capacity ∧
    (byte_read (byte_write (byte_write rb (List.replicate rb.m_capacity one))
          (List.replicate 3 nine)) rb.m_capacity).1 =
      List.replicate (rb.m_capacity - 3) one ++ List.replicate 3 nine := by
  have hszA : ∀ e ∈ List.replicate rb.m_capacity one,
      e.length = rb.m_elem_size := by
    intro e he
    rw [List.eq_of_mem_replicate he]
    exact hone
  have hszB : ∀ e ∈ List.replicate 3 nine, e.length = rb.m_elem_size := by
    intro e he
    rw [List.eq_of_mem_replicate he]
    exact hnine
  have hcomp := byte_write_write rb (List.replicate rb.m_capacity one)
    (List.replicate 3 nine) halign hszA
  have hlenD : (List.replicate rb.m_capacity one ++
      List.replicate 3 nine).length = rb.m_capacity + 3 := by
    rw [List.length_append, List.length_replicate, List.length_replicate]
  have hhead : (byte_write rb (List.replicate rb.m_capacity one ++
      List.replicate 3 nine)).m_head = rb.m_capacity + 3 := by
    rw [byte_write_head, hlenD, h0, Nat.zero_add]
  have htail3 : (byte_write rb (List.replicate rb.m_capacity one ++
      List.replicate 3 nine)).m_tail = 3 := by
    rw [byte_write_tail, hlenD, h0, t0, if_pos (by omega)]
    omega
  refine ⟨fun rb2 data => ⟨rfl, rfl⟩, ?_, ?_⟩
  · rw [hcomp, hhead, htail3]
    omega
  · rw [hcomp]
    have hflat : (List.replicate rb.m_capacity one ++
        List.replicate 3 nine).flatten =
        (List.replicate rb.m_capacity one).flatten ++
          (List.replicate 3 nine).flatten := List.flatten_append _ _
    have hlenA : (List.replicate rb.m_capacity one).flatten.length =
        rb.m_capacity * rb.m_elem_size := by
      rw [flatten_length_uniform rb.m_elem_size _ hszA, List.length_replicate]
    have hlenB : (List.replicate 3 nine).flatten.length =
        3 * rb.m_elem_size := by
      rw [flatten_length_uniform rb.m_elem_size _ hszB, List.length_replicate]
    have hlenJ : (List.replicate rb.m_capacity one ++
        List.replicate 3 nine).flatten.length =
        rb.m_capacity * rb.m_elem_size + 3 * rb.m_elem_size := by
      rw [hflat, List.length_append, hlenA, hlenB]
    have hbytes : (byte_write rb (List.replicate rb.m_capacity one ++
        List.replicate 3 nine)).m_bytes =
        storeSeq rb.m_size_bytes 0
          (List.replicate rb.m_capacity one ++ List.replicate 3 nine).flatten
          rb.m_bytes := by
      rw [byte_write_bytes, h0, Nat.zero_mod, Nat.zero_mul]
    have hmin : min ((byte_write rb (List.replicate rb.m_capacity one ++
        List.replicate 3 nine)).m_head -
        (byte_write rb (List.replicate rb.m_capacity one ++
          List.replicate 3 nine)).m_tail) rb.m_capacity = rb.m_capacity := by
      rw [hhead, htail3]; omega
    rw [byte_read_fst, byte_write_elem_size, byte_write_capacity,
      byte_write_size_bytes, hmin, htail3, hbytes]
    apply List.ext_getElem
    · rw [List.length_map, List.length_range, List.length_append,
        List.length_replicate, List.length_replicate]
      omega
    · intro j hj1 hj2
      rw [List.length_map, List.length_range] at hj1
      rw [List.getElem_map, List.getElem_range]
      by_cases hcase : j < rb.m_capacity - 3
      · rw [List.getElem_append_left
          (show j < (List.replicate (rb.m_capacity - 3) one).length by
            rw [List.length_replicate]; exact hcase),
          List.getElem_replicate]
        apply List.ext_getElem
        · rw [List.length_map, List.length_range, hone]
        · intro b hb1 hb2
          rw [List.length_map, List.length_range] at hb1
          rw [List.getElem_map, List.getElem_range]
          have hb : b < rb.m_elem_size := hb1
          have hbn : b < nine.length := by omega
          have hprobe : ((3 % rb.m_capacity) * rb.m_elem_size +
              j * rb.m_elem_size + b) % rb.m_size_bytes =
              ((3 + j) * rb.m_elem_size + b) % rb.m_size_bytes := by
            rw [← halign]
            have hmq : ((3 % rb.m_capacity) * rb.m_elem_size +
                (j * rb.m_elem_size + b)) %
                (rb.m_capacity * rb.m_elem_size) =
                (3 * rb.m_elem_size + (j * rb.m_elem_size + b)) %
                (rb.m_capacity * rb.m_elem_size) :=
              Nat.ModEq.add_right _
                (Nat.ModEq.mul_right' _ (Nat.mod_modEq 3 _))
            calc ((3 % rb.m_capacity) * rb.m_elem_size +
                j * rb.m_elem_size + b) % (rb.m_capacity * rb.m_elem_size)
                = ((3 % rb.m_capacity) * rb.m_elem_size +
                    (j * rb.m_elem_size + b)) %
                  (rb.m_capacity * rb.m_elem_size) := by rw [Nat.add_assoc]
              _ = (3 * rb.m_elem_size + (j * rb.m_elem_size + b)) %
                  (rb.m_capacity * rb.m_elem_size) := hmq
              _ = ((3 + j) * rb.m_elem_size + b) %
                  (rb.m_capacity * rb.m_elem_size) := by
                  rw [show 3 * rb.m_elem_size + (j * rb.m_elem_size + b) =
                    (3 + j) * rb.m_elem_size + b from by ring]
          have e1 : (3 + j) * rb.m_elem_size + rb.m_elem_size =
              (3 + j + 1) * rb.m_elem_size := by ring
          have e2 : (3 + j + 1) * rb.m_elem_size ≤
              rb.m_capacity * rb.m_elem_size :=
            Nat.mul_le_mul_right _ (by omega)
          have hge3 : 3 * rb.m_elem_size ≤ (3 + j) * rb.m_elem_size :=
            Nat.mul_le_mul_right _ (by omega)
          have hpl : (3 + j) * rb.m_elem_size + b <
              rb.m_capacity * rb.m_elem_size := by omega
          have hplen : (3 + j) * rb.m_elem_size + b <
              (List.replicate rb.m_capacity one ++
                List.replicate 3 nine).flatten.length := by
            rw [hlenJ]; omega
          have hlast : ∀ k, (3 + j) * rb.m_elem_size + b < k →
              k < (List.replicate rb.m_capacity one ++
                List.replicate 3 nine).flatten.length →
              (0 + k) % rb.m_size_bytes ≠
                (0 + ((3 + j) * rb.m_elem_size + b)) % rb.m_size_bytes := by
            intro k hk hkL heq
            rw [hlenJ] at hkL
            rw [← halign] at heq
            have hmod : Nat.ModEq (rb.m_capacity * rb.m_elem_size)
                (0 + ((3 + j) * rb.m_elem_size + b)) (0 + k) := heq.symm
            have hdvd : rb.m_capacity * rb.m_elem_size ∣
                (0 + k) - (0 + ((3 + j) * rb.m_elem_size + b)) :=
              (Nat.modEq_iff_dvd' (by omega)).mp hmod
            have hge : rb.m_capacity * rb.m_elem_size ≤
                (0 + k) - (0 + ((3 + j) * rb.m_elem_size + b)) :=
              Nat.le_of_dvd (by omega) hdvd
            omega
          have hhit := storeSeq_last_hit rb.m_size_bytes
            (List.replicate rb.m_capacity one ++
              List.replicate 3 nine).flatten 0 rb.m_bytes
            ((3 + j) * rb.m_elem_size + b) hplen hlast
          have hmodp : ((3 + j) * rb.m_elem_size + b) % rb.m_size_bytes =
              (3 + j) * rb.m_elem_size + b := by
            rw [← halign]; exact Nat.mod_eq_of_lt hpl
          rw [Nat.zero_add, hmodp] at hhit
          rw [hprobe, hmodp, hhit,
            flatten_two_replicate_get one nine rb.m_elem_size hone hnine
              rb.m_capacity 3 (3 + j) b hb2 hbn hplen (by omega),
            if_pos (show 3 + j < rb.m_capacity by omega),
            List.get_eq_getElem]
      · rw [List.getElem_append_right
          (show (List.replicate (rb.m_capacity - 3) one).length ≤ j by
            rw [List.length_replicate]; omega),
          List.getElem_replicate]
        apply List.ext_getElem
        · rw [List.length_map, List.length_range, hnine]
        · intro b hb1 hb2
          rw [List.length_map, List.length_range] at hb1
          rw [List.getElem_map, List.getElem_range]
          have hb : b < rb.m_elem_size := hb1
          have hbo : b < one.length := by omega
          have e1 : (3 + j) * rb.m_elem_size + rb.m_elem_size =
              (3 + j + 1) * rb.m_elem_size := by ring
          have e2 : (3 + j + 1) * rb.m_elem_size ≤
              (rb.m_capacity + 3) * rb.m_elem_size :=
            Nat.mul_le_mul_right _ (by omega)
          have e3 : (rb.m_capacity + 3) * rb.m_elem_size =
              rb.m_capacity * rb.m_elem_size + 3 * rb.m_elem_size := by ring
          have e4 : rb.m_capacity * rb.m_elem_size ≤
              (3 + j) * rb.m_elem_size :=
            Nat.mul_le_mul_right _ (by omega)
          have e5 : 3 * rb.m_elem_size ≤ rb.m_capacity * rb.m_elem_size :=
            Nat.mul_le_mul_right _ (by omega)
          have hup : (3 + j) * rb.m_elem_size + b <
              rb.m_capacity * rb.m_elem_size + 3 * rb.m_elem_size := by omega
          have hprobe : ((3 % rb.m_capacity) * rb.m_elem_size +
              j * rb.m_elem_size + b) % rb.m_size_bytes =
              ((3 + j) * rb.m_elem_size + b) % rb.m_size_bytes := by
            rw [← halign]
            have hmq : ((3 % rb.m_capacity) * rb.m_elem_size +
                (j * rb.m_elem_size + b)) %
                (rb.m_capacity * rb.m_elem_size) =
                (3 * rb.m_elem_size + (j * rb.m_elem_size + b)) %
                (rb.m_capacity * rb.m_elem_size) :=
              Nat.ModEq.add_right _
                (Nat.ModEq.mul_right' _ (Nat.mod_modEq 3 _))
            calc ((3 % rb.m_capacity) * rb.m_elem_size +
                j * rb.m_elem_size + b) % (rb.m_capacity * rb.m_elem_size)
                = ((3 % rb.m_capacity) * rb.m_elem_size +
                    (j * rb.m_elem_size + b)) %
                  (rb.m_capacity * rb.m_elem_size) := by rw [Nat.add_assoc]
              _ = (3 * rb.m_elem_size + (j * rb.m_elem_size + b)) %
                  (rb.m_capacity * rb.m_elem_size) := hmq
              _ = ((3 + j) * rb.m_elem_size + b) %
                  (rb.m_capacity * rb.m_elem_size) := by
                  rw [show 3 * rb.m_elem_size + (j * rb.m_elem_size + b) =
                    (3 + j) * rb.m_elem_size + b from by ring]
          have hmodp : ((3 + j) * rb.m_elem_size + b) % rb.m_size_bytes =
              (3 + j) * rb.m_elem_size + b -
                rb.m_capacity * rb.m_elem_size := by
            rw [← halign, Nat.mod_eq_sub_mod (by omega),
              Nat.mod_eq_of_lt (by omega)]
          have hplen : (3 + j) * rb.m_elem_size + b <
              (List.replicate rb.m_capacity one ++
                List.replicate 3 nine).flatten.length := by
            rw [hlenJ]; omega
          have hlast : ∀ k, (3 + j) * rb.m_elem_size + b < k →
              k < (List.replicate rb.m_capacity one ++
                List.replicate 3 nine).flatten.length →
              (0 + k) % rb.m_size_bytes ≠
                (0 + ((3 + j) * rb.m_elem_size + b)) % rb.m_size_bytes := by
            intro k hk hkL heq
            rw [hlenJ] at hkL
            rw [← halign] at heq
            have hmod : Nat.ModEq (rb.m_capacity * rb.m_elem_size)
                (0 + ((3 + j) * rb.m_elem_size + b)) (0 + k) := heq.symm
            have hdvd : rb.m_capacity * rb.m_elem_size ∣
                (0 + k) - (0 + ((3 + j) * rb.m_elem_size + b)) :=
              (Nat.modEq_iff_dvd' (by omega)).mp hmod
            have hge : rb.m_capacity * rb.m_elem_size ≤
                (0 + k) - (0 + ((3 + j) * rb.m_elem_size + b)) :=
              Nat.le_of_dvd (by omega) hdvd
            omega
          have hhit := storeSeq_last_hit rb.m_size_bytes
            (List.replicate rb.m_capacity one ++
              List.replicate 3 nine).flatten 0 rb.m_bytes
            ((3 + j) * rb.m_elem_size + b) hplen hlast
          rw [Nat.zero_add] at hhit
          rw [hprobe, hhit,
            flatten_two_replicate_get one nine rb.m_elem_size hone hnine
              rb.m_capacity 3 (3 + j) b hbo hb2 hplen (by omega),
            if_neg (show ¬ 3 + j < rb.m_capacity by omega),
            List.get_eq_getElem]

/-- Witness for C2 (amended): the ones/nines overwrite scenario at the
concrete aligned state (16-byte region, four 4-byte elements), with the
same read-back also checked by direct evaluation. -/
theorem C2_overwrite_policy_witness :
    (brbAligned.m_head = 0 ∧ brbAligned.m_tail = 0 ∧
      3 ≤ brbAligned.m_capacity ∧
      brbAligned.m_capacity * brbAligned.m_elem_size =
        brbAligned.m_size_bytes ∧
      ([1, 2, 3, 4] : List Nat).length = brbAligned.m_elem_size ∧
      ([9, 8, 7, 6] : List Nat).length = brbAligned.m_elem_size) ∧
    ((∀ (rb2 : ByteRingBuffer) (data : List (List Nat)),
        (byte_write rb2 data).m_head = rb2.m_head + data.length ∧
        (byte_write rb2 data).m_tail =
          if rb2.m_head + data.length - rb2.m_tail > rb2.m_capacity then
            rb2.m_head + data.length - rb2.m_capacity
          else rb2.m_tail) ∧
      (byte_write (byte_write brbAligned
            (List.replicate brbAligned.m_capacity [1, 2, 3, 4]))
          (List.replicate 3 [9, 8, 7, 6])).m_head -
        (byte_write (byte_write brbAligned
            (List.replicate brbAligned.m_capacity [1, 2, 3, 4]))
          (List.replicate 3 [9, 8, 7, 6])).m_tail = brbAligned.m_capacity ∧
      (byte_read (byte_write (byte_write brbAligned
            (List.replicate brbAligned.m_capacity [1, 2, 3, 4]))
          (List.replicate 3 [9, 8, 7, 6])) brbAligned.m_capacity).1 =
        List.replicate (brbAligned.m_capacity - 3) [1, 2, 3, 4] ++
          List.replicate 3 [9, 8, 7, 6]) ∧
    (byte_read (byte_write (byte_write brbAligned
          (List.replicate brbAligned.m_capacity [1, 2, 3, 4]))
        (List.replicate 3 [9, 8, 7, 6])) brbAligned.m_capacity).1 =
      [[1, 2, 3, 4], [9, 8, 7, 6], [9, 8, 7, 6], [9, 8, 7, 6]] :=
  ⟨⟨rfl, rfl, by decide, by decide, by decide, by decide⟩,
    C2_overwrite_policy brbAligned [1, 2, 3, 4] [9, 8, 7, 6] rfl rfl
      (by decide) (by decide) (by decide) (by decide),
    by decide⟩

/-- Claim C5: every state reachable from a fresh buffer through writes of
length at most the capacity, reads, and clears satisfies `tail ≤ head` and
`head - tail ≤ capacity`, and `size` returns `head - tail`. -/
theorem C5_invariants {T : Type} (rb : RingBuffer T) (h : Reachable rb) :
    rb.m_tail ≤ rb.m_head ∧ rb.m_head - rb.m_tail ≤ rb.m_capacity ∧
    size rb = rb.m_head - rb.m_tail := by
  induction h with
  | fresh rb h0 t0 => simp [size, h0, t0]
  | wstep rb data hr hl ih =>
      obtain ⟨ih1, ih2, -⟩ := ih
      refine ⟨?_, ?_, rfl⟩ <;>
        (simp only [write_head, write_tail, write_capacity];
         split_ifs <;> omega)
  | rstep rb M hr ih =>
      obtain ⟨ih1, ih2, -⟩ := ih
      refine ⟨?_, ?_, rfl⟩ <;>
        (simp only [read_snd_head, read_snd_tail, read_snd_capacity]; omega)
  | cstep rb hr ih => exact ⟨Nat.le_refl 0, by simp, rfl⟩

/-- Witness for C5: the invariants at a concrete reachable state (one write
and one read applied to a fresh buffer). -/
theorem C5_invariants_witness :
    Reachable ((read (write (rbDemo 8) [1, 2, 3]) 2).2) ∧
    ((read (write (rbDemo 8) [1, 2, 3]) 2).2.m_tail ≤
        (read (write (rbDemo 8) [1, 2, 3]) 2).2.m_head ∧
      (read (write (rbDemo 8) [1, 2, 3]) 2).2.m_head -
          (read (write (rbDemo 8) [1, 2, 3]) 2).2.m_tail ≤
        (read (write (rbDemo 8) [1, 2, 3]) 2).2.m_capacity ∧
      size ((read (write (rbDemo 8) [1, 2, 3]) 2).2) =
        (read (write (rbDemo 8) [1, 2, 3]) 2).2.m_head -
          (read (write (rbDemo 8) [1, 2, 3]) 2).2.m_tail) :=
  have hreach : Reachable ((read (write (rbDemo 8) [1, 2, 3]) 2).2) :=
    .rstep _ 2 (.wstep (rbDemo 8) [1, 2, 3] (.fresh _ rfl rfl) (by decide))
  ⟨hreach, C5_invariants _ hreach⟩

/-- Claim C6: `read` with an output buffer of length `M` returns exactly
`min (head - tail) M` elements taken from consecutive mirrored slots
starting at `tail % capacity`, advances the tail by that count and leaves
the head unchanged; on an empty buffer it returns zero elements and leaves
the buffer empty. -/
theorem C6_read_behavior {T : Type} (rb : RingBuffer T) (M : Nat) :
    (read rb M).1.length = min (rb.m_head - rb.m_tail) M ∧
    (∀ j (hj : j < (read rb M).1.length),
        (read rb M).1.get ⟨j, hj⟩ =
          rb.m_buffer ((rb.m_tail % rb.m_capacity + j) % rb.m_capacity)) ∧
    (read rb M).2.m_tail = rb.m_tail + min (rb.m_head - rb.m_tail) M ∧
    (read rb M).2.m_head = rb.m_head ∧
    (rb.m_head = rb.m_tail →
      (read rb M).1 = [] ∧ empty ((read rb M).2) = true) := by
  refine ⟨by simp, ?_, rfl, rfl, ?_⟩
  · intro j hj
    simp only [read_fst, List.get_eq_getElem, List.getElem_map,
      List.getElem_range]
  · intro h
    constructor
    · simp [read_fst, h]
    · simp [empty, h]

/-- Witness for C6: reading 2 of 3 buffered elements from a concrete state,
and the empty-read case via the implication discharged at a fresh buffer. -/
theorem C6_read_behavior_witness :
    ((read (rbDemo 8) 5).1.length =
        min ((rbDemo 8).m_head - (rbDemo 8).m_tail) 5 ∧
      (∀ j (hj : j < (read (rbDemo 8) 5).1.length),
          (read (rbDemo 8) 5).1.get ⟨j, hj⟩ =
            (rbDemo 8).m_buffer
              (((rbDemo 8).m_tail % (rbDemo 8).m_capacity + j) %
                (rbDemo 8).m_capacity)) ∧
      (read (rbDemo 8) 5).2.m_tail =
        (rbDemo 8).m_tail + min ((rbDemo 8).m_head - (rbDemo 8).m_tail) 5 ∧
      (read (rbDemo 8) 5).2.m_head = (rbDemo 8).m_head ∧
      ((rbDemo 8).m_head = (rbDemo 8).m_tail →
        (read (rbDemo 8) 5).1 = [] ∧ empty ((read (rbDemo 8) 5).2) = true)) ∧
    (read (rbDemo 8) 5).1 = [] ∧ empty ((read (rbDemo 8) 5).2) = true :=
  ⟨C6_read_behavior (rbDemo 8) 5, (C6_read_behavior (rbDemo 8) 5).2.2.2.2 rfl⟩

/-- Counterexample to C3 as stated: with page size 4096 and a 3-byte element
type, requesting one element succeeds with `m_size_bytes = 4096` and
`capacity = 4096 / 3 = 1365`, so `capacity * elemSize = 4095`, which is not
a multiple of 4096 at all, hence not the smallest page multiple ≥ 3. -/
theorem C3_counterexample :
    construct Nat 4096 3 1 (fun _ => 0) =
      .ok { m_size_bytes := 4096, m_capacity := 1365,
            m_buffer := fun _ => (0 : Nat), m_head := 0, m_tail := 0 } ∧
    1365 * 3 = 4095 ∧
    ¬ leastPageMultiple 4096 (1 * 3) (1365 * 3) := by
  refine ⟨rfl, rfl, ?_⟩
  rintro ⟨hdvd, -, -⟩
  rw [Nat.dvd_iff_mod_eq_zero] at hdvd
  exact absurd hdvd (by decide)

/-- Claim C3, amended: for every positive page size, element size and
request, the constructed `m_size_bytes` is — unconditionally — the smallest
multiple of the page size that is ≥ `requested * elemSize`, and the
capacity is at least 1; `capacity * elemSize` equals that smallest multiple
whenever the element size divides the page size (it falls short of it
otherwise, by the counterexample). -/
theorem C3_capacity_rounding {T : Type} (ps elemSize requested : Nat)
    (init : Nat → T) (hp : 0 < ps) (he : 0 < elemSize) (hr : 0 < requested)
    (rb : RingBuffer T)
    (hok : construct T ps elemSize requested init = .ok rb) :
    leastPageMultiple ps (requested * elemSize) rb.m_size_bytes ∧
    1 ≤ rb.m_capacity ∧
    (elemSize ∣ ps → rb.m_capacity * elemSize = rb.m_size_bytes) := by
  have hne : ¬ requested = 0 := by omega
  rw [construct, if_neg hne] at hok
  have hrb := (Except.ok.inj hok).symm
  subst hrb
  have hleast := round_to_page_least ps (requested * elemSize) hp
    (Nat.mul_pos hr he)
  refine ⟨hleast, ?_, ?_⟩
  · show 1 ≤ round_to_page ps (requested * elemSize) / elemSize
    have hge : requested * elemSize ≤ round_to_page ps (requested * elemSize) :=
      hleast.2.1
    have hle : elemSize ≤ round_to_page ps (requested * elemSize) := by
      have := Nat.le_mul_of_pos_left elemSize hr
      omega
    rw [Nat.le_div_iff_mul_le he, Nat.one_mul]
    exact hle
  · intro hdvd
    show round_to_page ps (requested * elemSize) / elemSize * elemSize =
      round_to_page ps (requested * elemSize)
    exact Nat.div_mul_cancel (dvd_trans hdvd hleast.1)

/-- Witness for C3 (amended): at page size 4096, both for the dividing
element size 8 (request 3, where the equality clause applies) and for the
non-dividing element size 3 (request 1, the counterexample configuration,
where the unconditional clauses still hold). -/
theorem C3_capacity_rounding_witness :
    (0 < 4096 ∧ 0 < 8 ∧ 0 < 3 ∧
      construct Nat 4096 8 3 (fun _ => 0) =
        .ok { m_size_bytes := 4096, m_capacity := 512,
              m_buffer := fun _ => (0 : Nat), m_head := 0, m_tail := 0 } ∧
      construct Nat 4096 3 1 (fun _ => 0) =
        .ok { m_size_bytes := 4096, m_capacity := 1365,
              m_buffer := fun _ => (0 : Nat), m_head := 0, m_tail := 0 }) ∧
    (leastPageMultiple 4096 (3 * 8) 4096 ∧ 1 ≤ (512 : Nat) ∧
      ((8 : Nat) ∣ 4096 → (512 : Nat) * 8 = 4096)) ∧
    (512 : Nat) * 8 = 4096 ∧
    (leastPageMultiple 4096 (1 * 3) 4096 ∧ 1 ≤ (1365 : Nat) ∧
      ((3 : Nat) ∣ 4096 → (1365 : Nat) * 3 = 4096)) := by
  have h8 := C3_capacity_rounding 4096 8 3 (fun _ => (0 : Nat)) (by decide)
    (by decide) (by decide)
    { m_size_bytes := 4096, m_capacity := 512,
      m_buffer := fun _ => (0 : Nat), m_head := 0, m_tail := 0 } rfl
  have h3 := C3_capacity_rounding 4096 3 1 (fun _ => (0 : Nat)) (by decide)
    (by decide) (by decide)
    { m_size_bytes := 4096, m_capacity := 1365,
      m_buffer := fun _ => (0 : Nat), m_head := 0, m_tail := 0 } rfl
  exact ⟨⟨by decide, by decide, by decide, rfl, rfl⟩, h8, h8.2.2 (by decide), h3⟩

/-- Counterexample to C4 as stated: `write` performs no validation or
chunking.  On a buffer with a 4096-byte region, capacity 1024 (4-byte
elements) and one element already written (`head = 1`), a single write of
2048 elements is copied as one contiguous span of `2048 * 4 = 8192` bytes
starting at byte offset `(1 % 1024) * 4 = 4`, which overruns the doubled
`2 * 4096`-byte mapping — and the write still proceeds, advancing the head
to 2049. -/
theorem C4_counterexample :
    ¬ write_within_region
        (write { m_size_bytes := 4096, m_capacity := 1024,
                 m_buffer := fun _ => (0 : Nat), m_head := 0, m_tail := 0 }
          [5]) 4 2048 ∧
    (write
        (write { m_size_bytes := 4096, m_capacity := 1024,
                 m_buffer := fun _ => (0 : Nat), m_head := 0, m_tail := 0 }
          [5])
        (List.replicate 2048 7)).m_head = 2049 := by
  constructor
  · intro h
    have h2 : (1 % 1024) * 4 + 2048 * 4 ≤ 2 * 4096 := h
    omega
  · rw [write_head, write_head, List.length_replicate]
    decide

/-- Claim C4, amended: `write` does not validate `L ≤ capacity` (it must be
upheld by the caller), and under that precondition the single contiguous
copy of `L` elements at byte offset `(head % capacity) * elemSize` stays
inside the doubled region of `2 * m_size_bytes` bytes, given the
constructed relation `capacity * elemSize ≤ m_size_bytes`. -/
theorem C4_write_bound {T : Type} (rb : RingBuffer T) (elemSize : Nat)
    (data : List T) (hc : 0 < rb.m_capacity)
    (hbytes : rb.m_capacity * elemSize ≤ rb.m_size_bytes)
    (hL : data.length ≤ rb.m_capacity) :
    write_within_region rb elemSize data.length ∧
    (write rb data).m_head = rb.m_head + data.length := by
  refine ⟨?_, rfl⟩
  show (rb.m_head % rb.m_capacity) * elemSize + data.length * elemSize ≤
    2 * rb.m_size_bytes
  have hmod : rb.m_head % rb.m_capacity < rb.m_capacity :=
    Nat.mod_lt _ hc
  calc (rb.m_head % rb.m_capacity) * elemSize + data.length * elemSize
      = (rb.m_head % rb.m_capacity + data.length) * elemSize :=
        (Nat.add_mul _ _ _).symm
    _ ≤ (2 * rb.m_capacity) * elemSize :=
        Nat.mul_le_mul_right elemSize (by omega)
    _ = 2 * (rb.m_capacity * elemSize) := by ring
    _ ≤ 2 * rb.m_size_bytes := Nat.mul_le_mul_left 2 hbytes

/-- Witness for C4 (amended): an in-bounds write of 6 elements on the
demo buffer of capacity 8 with 8-byte elements. -/
theorem C4_write_bound_witness :
    (0 < (rbDemo 8).m_capacity ∧
      (rbDemo 8).m_capacity * 8 ≤ (rbDemo 8).m_size_bytes ∧
      (List.replicate 6 (1 : Nat)).length ≤ (rbDemo 8).m_capacity) ∧
    (write_within_region (rbDemo 8) 8 (List.replicate 6 (1 : Nat)).length ∧
      (write (rbDemo 8) (List.replicate 6 (1 : Nat))).m_head =
        (rbDemo 8).m_head + (List.replicate 6 (1 : Nat)).length) :=
  ⟨⟨by decide, by decide, by decide⟩,
    C4_write_bound (rbDemo 8) 8 (List.replicate 6 1) (by decide) (by decide)
      (by decide)⟩

/-- Claim C7: construction fails, with the configuration error, exactly when
the requested capacity is zero (OS failures are outside the model); on
success the buffer starts with `head = tail = 0`.  The post-construction
operations `write`, `read`, `size`, `empty`, `clear` are total functions of
the state with no error outcome. -/
theorem C7_construct_error {T : Type} (ps elemSize requested : Nat)
    (init : Nat → T) :
    (construct T ps elemSize requested init = .error .configurationError ↔
      requested = 0) ∧
    (∀ rb, construct T ps elemSize requested init = .ok rb →
      rb.m_head = 0 ∧ rb.m_tail = 0) ∧
    (requested ≠ 0 → ∃ rb, construct T ps elemSize requested init = .ok rb) := by
  by_cases h : requested = 0
  · subst h
    refine ⟨by simp [construct], ?_, by simp⟩
    intro rb hrb
    simp [construct] at hrb
  · refine ⟨by simp [construct, h], ?_, fun _ => ?_⟩
    · intro rb hrb
      rw [construct, if_neg h] at hrb
      have hrb2 := (Except.ok.inj hrb).symm
      subst hrb2
      exact ⟨rfl, rfl⟩
    · exact ⟨_, by rw [construct, if_neg h]⟩

/-- Witness for C7, at page size 4096, element size 8, and requests 0 / 3. -/
theorem C7_construct_error_witness :
    ((construct Nat 4096 8 0 (fun _ => 0) = .error .configurationError ↔
        (0 : Nat) = 0) ∧
      (∀ rb, construct Nat 4096 8 0 (fun _ => 0) = .ok rb →
        rb.m_head = 0 ∧ rb.m_tail = 0) ∧
      ((0 : Nat) ≠ 0 → ∃ rb, construct Nat 4096 8 0 (fun _ => 0) = .ok rb)) ∧
    construct Nat 4096 8 0 (fun _ => 0) = .error .configurationError ∧
    (∃ rb, construct Nat 4096 8 3 (fun _ => 0) = .ok rb) :=
  ⟨C7_construct_error 4096 8 0 (fun _ => 0),
    (C7_construct_error 4096 8 0 (fun _ => 0)).1.mpr rfl,
    (C7_construct_error 4096 8 3 (fun _ => 0)).2.2 (by decide)⟩

/-- Claim C8: `clear` resets `head = tail = 0` and changes nothing else —
the backing memory is untouched (not zeroed), capacity and region size are
unchanged — after which `size = 0`, any read returns nothing, and a
write/read round trip behaves exactly as on a fresh buffer. -/
theorem C8_clear_frame {T : Type} (rb : RingBuffer T) :
    (clear rb).m_head = 0 ∧ (clear rb).m_tail = 0 ∧
    (clear rb).m_buffer = rb.m_buffer ∧
    capacity (clear rb) = capacity rb ∧
    (clear rb).m_size_bytes = rb.m_size_bytes ∧
    size (clear rb) = 0 ∧
    (∀ M, (read (clear rb) M).1 = []) ∧
    (∀ data : List T, data.length ≤ capacity rb →
        (read (write (clear rb) data) data.length).1 = data ∧
        size (read (write (clear rb) data) data.length).2 = 0 ∧
        empty ((read (write (clear rb) data) data.length).2) = true) := by
  refine ⟨rfl, rfl, rfl, rfl, rfl, rfl, ?_, ?_⟩
  · intro M
    simp [read_fst]
  · intro data hdata
    exact read_after_write_of_empty (clear rb) data rfl hdata

/-- Witness for C8: clearing a buffer that holds data, then
round-tripping `[4, 5]`. -/
theorem C8_clear_frame_witness :
    ((clear (write (rbDemo 8) [1, 2, 3])).m_head = 0 ∧
      (clear (write (rbDemo 8) [1, 2, 3])).m_tail = 0 ∧
      (clear (write (rbDemo 8) [1, 2, 3])).m_buffer =
        (write (rbDemo 8) [1, 2, 3]).m_buffer ∧
      capacity (clear (write (rbDemo 8) [1, 2, 3])) =
        capacity (write (rbDemo 8) [1, 2, 3]) ∧
      (clear (write (rbDemo 8) [1, 2, 3])).m_size_bytes =
        (write (rbDemo 8) [1, 2, 3]).m_size_bytes ∧
      size (clear (write (rbDemo 8) [1, 2, 3])) = 0 ∧
      (∀ M, (read (clear (write (rbDemo 8) [1, 2, 3])) M).1 = []) ∧
      (∀ data : List Nat,
          data.length ≤ capacity (write (rbDemo 8) [1, 2, 3]) →
          (read (write (clear (write (rbDemo 8) [1, 2, 3])) data)
              data.length).1 = data ∧
          size ((read (write (clear (write (rbDemo 8) [1, 2, 3])) data)
              data.length).2) = 0 ∧
          empty ((read (write (clear (write (rbDemo 8) [1, 2, 3])) data)
              data.length).2) = true)) ∧
    (read (write (clear (write (rbDemo 8) [1, 2, 3])) [4, 5]) 2).1 = [4, 5] :=
  ⟨C8_clear_frame (write (rbDemo 8) [1, 2, 3]),
    ((C8_clear_frame (write (rbDemo 8) [1, 2, 3])).2.2.2.2.2.2.2 [4, 5]
      (by decide)).1⟩

/-- Claim C9: the head only moves by writes, up by exactly the written
length; the tail never decreases, and a read moves it up by exactly the
returned count; across any clear-free sequence of operations both counters
are non-decreasing. -/
theorem C9_monotonicity {T : Type} :
    (∀ (rb : RingBuffer T) (data : List T),
        (write rb data).m_head = rb.m_head + data.length ∧
        rb.m_tail ≤ (write rb data).m_tail) ∧
    (∀ (rb : RingBuffer T) (M : Nat),
        (read rb M).2.m_head = rb.m_head ∧
        (read rb M).2.m_tail = rb.m_tail + (read rb M).1.length) ∧
    (∀ (rb : RingBuffer T) (ops : List (Op T)),
        (∀ op ∈ ops, op ≠ Op.opClear) →
        rb.m_head ≤ (applyOps rb ops).m_head ∧
        rb.m_tail ≤ (applyOps rb ops).m_tail) := by
  refine ⟨?_, ?_, ?_⟩
  · intro rb data
    refine ⟨rfl, ?_⟩
    rw [write_tail]
    split_ifs <;> omega
  · intro rb M
    exact ⟨rfl, by simp [read_fst]⟩
  · intro rb ops
    induction ops generalizing rb with
    | nil => intro _; exact ⟨Nat.le_refl _, Nat.le_refl _⟩
    | cons op ops ih =>
        intro hno
        have hop : op ≠ Op.opClear := hno op (List.mem_cons_self op ops)
        have hrest := ih (applyOp rb op)
          (fun o ho => hno o (List.mem_cons_of_mem op ho))
        have hstep : rb.m_head ≤ (applyOp rb op).m_head ∧
            rb.m_tail ≤ (applyOp rb op).m_tail := by
          cases op with
          | opWrite data =>
              refine ⟨by simp [applyOp], ?_⟩
              show rb.m_tail ≤ (write rb data).m_tail
              rw [write_tail]
              split_ifs <;> omega
          | opRead M =>
              exact ⟨Nat.le_refl _, by simp [applyOp]⟩
          | opClear => exact absurd rfl hop
        have happ : applyOps rb (op :: ops) = applyOps (applyOp rb op) ops := rfl
        rw [happ]
        exact ⟨Nat.le_trans hstep.1 hrest.1, Nat.le_trans hstep.2 hrest.2⟩

/-- Witness for C9: monotonicity across the clear-free sequence
`write [1,2,3]; read 2; write [4]` on the demo buffer. -/
theorem C9_monotonicity_witness :
    (∀ op ∈ [Op.opWrite [1, 2, 3], Op.opRead 2, Op.opWrite [4]],
        op ≠ Op.opClear) ∧
    ((rbDemo 8).m_head ≤
        (applyOps (rbDemo 8)
          [Op.opWrite [1, 2, 3], Op.opRead 2, Op.opWrite [4]]).m_head ∧
      (rbDemo 8).m_tail ≤
        (applyOps (rbDemo 8)
          [Op.opWrite [1, 2, 3], Op.opRead 2, Op.opWrite [4]]).m_tail) :=
  ⟨by intro op hop; fin_cases hop <;> simp,
    (C9_monotonicity.2.2 (rbDemo 8)
      [Op.opWrite [1, 2, 3], Op.opRead 2, Op.opWrite [4]]
      (by intro op hop; fin_cases hop <;> simp))⟩

/-- Counterexample to C10 as stated: in the slack configuration
(16-byte region, capacity 5, 3-byte elements, one slack byte) with
`head = tail = 4`, writing one element and then a second places the second
element at physical bytes 0-2 (the second write's start offset is
re-reduced modulo the capacity), while the single combined write reaches it
through the byte mirror at physical bytes {15, 0, 1}.  The resulting states
differ — byte 15 is untouched (0) after the split writes but 9 after the
combined write — and so do subsequent reads, even though
`length a + length b = 2 ≤ capacity = 5`. -/
theorem C10_counterexample :
    ([[1, 2, 3]] : List (List Nat)).length + [[9, 9, 9]].length ≤
      brbSlack4.m_capacity ∧
    (byte_write (byte_write brbSlack4 [[1, 2, 3]]) [[9, 9, 9]]).m_bytes 15 = 0 ∧
    (byte_write brbSlack4 ([[1, 2, 3]] ++ [[9, 9, 9]])).m_bytes 15 = 9 ∧
    (byte_read (byte_write (byte_write brbSlack4 [[1, 2, 3]]) [[9, 9, 9]]) 5).1 =
      [[1, 2, 3], [0, 9, 9]] ∧
    (byte_read (byte_write brbSlack4 ([[1, 2, 3]] ++ [[9, 9, 9]])) 5).1 =
      [[1, 2, 3], [9, 9, 9]] ∧
    byte_write (byte_write brbSlack4 [[1, 2, 3]]) [[9, 9, 9]] ≠
      byte_write brbSlack4 ([[1, 2, 3]] ++ [[9, 9, 9]]) := by
  have hL : (byte_write (byte_write brbSlack4 [[1, 2, 3]])
      [[9, 9, 9]]).m_bytes 15 = 0 := by decide
  have hR : (byte_write brbSlack4
      ([[1, 2, 3]] ++ [[9, 9, 9]])).m_bytes 15 = 9 := by decide
  refine ⟨by decide, hL, hR, by decide, by decide, ?_⟩
  intro h
  have h15 : (byte_write (byte_write brbSlack4 [[1, 2, 3]])
        [[9, 9, 9]]).m_bytes 15 =
      (byte_write brbSlack4 ([[1, 2, 3]] ++ [[9, 9, 9]])).m_bytes 15 :=
    congrArg (fun s => ByteRingBuffer.m_bytes s 15) h
  rw [hL, hR] at h15
  exact absurd h15 (by decide)

/-- Claim C10, amended: for any state and any two sequences whose combined
length is at most the capacity, the two consecutive writes produce exactly
the same state — head, tail and physical bytes — as the single write of
their concatenation, in the aligned case `capacity * sizeof(T) =
m_size_bytes` (every element size dividing the page size, in particular all
element types of the repository's tests); in the slack case the split and
combined writes place the wrap-crossing element at different physical bytes
(see the counterexample). -/
theorem C10_write_split (rb : ByteRingBuffer) (a b : List (List Nat))
    (halign : rb.m_capacity * rb.m_elem_size = rb.m_size_bytes)
    (hsz : ∀ e ∈ a, e.length = rb.m_elem_size)
    (_hlen : a.length + b.length ≤ rb.m_capacity) :
    byte_write (byte_write rb a) b = byte_write rb (a ++ b) :=
  byte_write_write rb a b halign hsz

/-- Witness for C10 (amended): splitting a two-element write on the
concrete aligned state (16-byte region, four 4-byte elements). -/
theorem C10_write_split_witness :
    (brbAligned.m_capacity * brbAligned.m_elem_size =
        brbAligned.m_size_bytes ∧
      (∀ e ∈ ([[1, 2, 3, 4]] : List (List Nat)),
        e.length = brbAligned.m_elem_size) ∧
      ([[1, 2, 3, 4]] : List (List Nat)).length +
        ([[5, 6, 7, 8]] : List (List Nat)).length ≤ brbAligned.m_capacity) ∧
    byte_write (byte_write brbAligned [[1, 2, 3, 4]]) [[5, 6, 7, 8]] =
      byte_write brbAligned ([[1, 2, 3, 4]] ++ [[5, 6, 7, 8]]) :=
  ⟨⟨by decide, by decide, by decide⟩,
    C10_write_split brbAligned [[1, 2, 3, 4]] [[5, 6, 7, 8]] (by decide)
      (by decide) (by decide)⟩

end VRB
